import Mathlib

/-!
Shallow embedding of `tokenizer.go` (package main of blog.vanloo.ch): a
finite-state tokenizer over a sequence of runes, modelled as Lean
functions over `List Char`.  The Go while-loops are rendered as
structurally recursive functions; each inner scan carries a budget equal
to the number of characters remaining, which is exact because every
iteration of the corresponding Go loop advances its index by at least one
while the loop condition requires the index to stay below the input
length.  The driver loop carries an explicit fuel and reports exhaustion
with a dedicated result, so that termination of the Go loop is a provable
statement about the embedding.
-/

namespace Blog

inductive TokenType
  | TypeFormStart
  | TypeAtom
  | TypeText
  | TypeFormEnd
deriving DecidableEq, Repr

structure Token where
  type : TokenType
  text : String
  pos : Nat
deriving DecidableEq, Repr

/-- `isWhitespace` from tokenizer.go: membership in the slice
`{' ', '\n', '\r', '\t', '\v', '\f'}`. -/
def isWhitespace (r : Char) : Bool :=
  r == ' ' || r == '\n' || r == '\r' || r == '\t' ||
    r == Char.ofNat 11 || r == Char.ofNat 12

/-- `isAlpha` from tokenizer.go: `r >= 97 && r <= 122 || r == '-'`. -/
def isAlpha (r : Char) : Bool :=
  decide ((97 ≤ r.toNat ∧ r.toNat ≤ 122) ∨ r = '-')

/-- `isNum` from tokenizer.go: `r >= 48 && r <= 57`. -/
def isNum (r : Char) : Bool :=
  decide (48 ≤ r.toNat ∧ r.toNat ≤ 57)

/-- `isAlphaNum` from tokenizer.go. -/
def isAlphaNum (r : Char) : Bool :=
  isAlpha r || isNum r

/-- Body of the `skipWhitespace` loop; the budget argument bounds the
remaining iterations (each iteration moves `pos` one step closer to
`bs.length`, and the loop stops once `pos` reaches it). -/
def skipWhitespaceAux (bs : List Char) : Nat → Nat → Nat
  | 0, pos => pos
  | k + 1, pos =>
    if pos < bs.length ∧ isWhitespace (bs.getD pos ' ') = true then
      skipWhitespaceAux bs k (pos + 1)
    else pos

/-- `skipWhitespace` from tokenizer.go: advance `pos` past whitespace. -/
def skipWhitespace (bs : List Char) (pos : Nat) : Nat :=
  skipWhitespaceAux bs (bs.length - pos) pos

/-- Body of the scanning loop of `tokAtom`; budget as in
`skipWhitespaceAux`. -/
def atomEndAux (bs : List Char) : Nat → Nat → Nat
  | 0, e => e
  | k + 1, e =>
    if e < bs.length ∧ isAlphaNum (bs.getD e ' ') = true then
      atomEndAux bs k (e + 1)
    else e

/-- The final value of `atomEnd` in `tokAtom` of tokenizer.go. -/
def atomEnd (bs : List Char) (pos : Nat) : Nat :=
  atomEndAux bs (bs.length - pos) pos

/-- Body of the scanning loop of `tokText`; budget as in
`skipWhitespaceAux` (every iteration advances `textEnd` by one or two).
The `error` branch is the `panic("invalid escape character")` of the Go
source. -/
def textEndAux (bs : List Char) : Nat → Nat → Bool → Except String Nat
  | 0, e, _ => .ok e
  | k + 1, e, quoted =>
    if e < bs.length ∧
        ((bs.getD e ' ' ≠ ')' ∧ bs.getD e ' ' ≠ '(') ∨ quoted = true) then
      if bs.getD e ' ' = '\\' then
        if e + 1 < bs.length ∧
            (bs.getD (e + 1) ' ' = '(' ∨ bs.getD (e + 1) ' ' = ')' ∨
              bs.getD (e + 1) ' ' = '\\') then
          textEndAux bs k (e + 2) quoted
        else if e + 1 < bs.length ∧ bs.getD (e + 1) ' ' = '+' then
          textEndAux bs k (e + 2) (!quoted)
        else .error "invalid escape character"
      else textEndAux bs k (e + 1) quoted
    else .ok e

/-- The final value of `textEnd` in `tokText` of tokenizer.go (or the
panic message). -/
def textEnd (bs : List Char) (pos : Nat) : Except String Nat :=
  textEndAux bs (bs.length - pos) pos false

/-- The Go expression `string(t.bs[a:b])`. -/
def substring (bs : List Char) (a b : Nat) : String :=
  String.mk ((bs.drop a).take (b - a))

/-- The mutable fields of Go's `Tokenizer` struct (the `state` field is
threaded separately through the driver loop). -/
structure Tokenizer where
  bs : List Char
  pos : Nat
  tokens : List Token
deriving DecidableEq, Repr

/-- The state functions of the machine (`tokFunc` values of the Go
source). -/
inductive TokState
  | tokTextOrForm
  | tokText
  | tokForm
  | tokNilOrAtom
  | tokNil
  | tokAtom
  | tokNilOrTextOrForm
  | tokEOF
deriving DecidableEq, Repr

/-- Result of executing one state function: either a Go panic, or the
updated tokenizer together with the next state (`none` models the `nil`
`tokFunc` returned by `tokEOF`). -/
inductive StepOut
  | panicked (msg : String)
  | next (t : Tokenizer) (s : Option TokState)
deriving DecidableEq, Repr

/-- One invocation of the current state function, state by state a direct
transcription of tokenizer.go. -/
def step (t : Tokenizer) : TokState → StepOut
  | .tokTextOrForm =>
    let p := skipWhitespace t.bs t.pos
    if t.bs.length ≤ p then .next { t with pos := p } (some .tokEOF)
    else if t.bs.getD p ' ' = '(' then .next { t with pos := p } (some .tokForm)
    else .next { t with pos := p } (some .tokText)
  | .tokText =>
    let p := skipWhitespace t.bs t.pos
    if t.bs.length ≤ p then .next { t with pos := p } (some .tokEOF)
    else
      match textEnd t.bs p with
      | .error msg => .panicked msg
      | .ok e =>
        .next { bs := t.bs, pos := e,
                tokens := t.tokens ++ [⟨.TypeText, substring t.bs p e, p⟩] }
          (some .tokNilOrTextOrForm)
  | .tokForm =>
    .next { bs := t.bs, pos := t.pos + 1,
            tokens := t.tokens ++ [⟨.TypeFormStart, "(", t.pos⟩] }
      (some .tokNilOrAtom)
  | .tokNilOrAtom =>
    let p := skipWhitespace t.bs t.pos
    if t.bs.length ≤ p then .next { t with pos := p } (some .tokEOF)
    else if t.bs.getD p ' ' = '(' then
      .panicked "invalid: cannot start form / expected atom or nil"
    else if t.bs.getD p ' ' = ')' then .next { t with pos := p } (some .tokNil)
    else .next { t with pos := p } (some .tokAtom)
  | .tokNil =>
    .next { bs := t.bs, pos := t.pos + 1,
            tokens := t.tokens ++ [⟨.TypeFormEnd, ")", t.pos⟩] }
      (some .tokNilOrTextOrForm)
  | .tokAtom =>
    let e := atomEnd t.bs t.pos
    .next { bs := t.bs, pos := e,
            tokens := t.tokens ++ [⟨.TypeAtom, substring t.bs t.pos e, t.pos⟩] }
      (some .tokNilOrTextOrForm)
  | .tokNilOrTextOrForm =>
    let p := skipWhitespace t.bs t.pos
    if t.bs.length ≤ p then .next { t with pos := p } (some .tokEOF)
    else if t.bs.getD p ' ' = ')' then .next { t with pos := p } (some .tokNil)
    else if t.bs.getD p ' ' = '(' then .next { t with pos := p } (some .tokForm)
    else .next { t with pos := p } (some .tokText)
  | .tokEOF =>
    .next { bs := t.bs, pos := t.pos,
            tokens := t.tokens ++
              [⟨.TypeFormStart, "(", t.pos⟩, ⟨.TypeAtom, "eof", t.pos⟩,
                ⟨.TypeFormEnd, ")", t.pos⟩] }
      none

/-- Result of a whole run of `Tokenize`.  `outOfFuel` is reported only
when the fuel is exhausted while the Go loop condition
`t.pos < l && t.state != nil` still holds, so `Tokenize` never actually
returns it (theorem below). -/
inductive RunOut
  | done (tokens : List Token)
  | panicked (msg : String)
  | outOfFuel
deriving DecidableEq, Repr

/-- The driver loop of `Tokenize`:
`for t.pos < l && t.state != nil { t.state = t.state() }`. -/
def runLoop : Nat → Tokenizer → Option TokState → RunOut
  | _, t, none => .done t.tokens
  | 0, t, some _ =>
    if t.pos < t.bs.length then .outOfFuel else .done t.tokens
  | k + 1, t, some s =>
    if t.pos < t.bs.length then
      match step t s with
      | .panicked msg => .panicked msg
      | .next t2 s2 => runLoop k t2 s2
    else .done t.tokens

/-- `Tokenize` from tokenizer.go on a fresh `Tokenizer` (as built by
`NewTokenizer`): initial state `tokTextOrForm`, cursor 0, no tokens.  The
fuel `4 * length + 4` is shown sufficient below. -/
def Tokenize (bs : List Char) : RunOut :=
  runLoop (4 * bs.length + 4) { bs := bs, pos := 0, tokens := [] }
    (some .tokTextOrForm)

theorem skipWhitespaceAux_ge (bs : List Char) (k : Nat) :
    ∀ pos, pos ≤ skipWhitespaceAux bs k pos := by
  induction k with
  | zero => intro pos; simp [skipWhitespaceAux]
  | succ k ih =>
    intro pos
    rw [skipWhitespaceAux]
    split
    · exact le_trans (Nat.le_succ pos) (ih (pos + 1))
    · exact le_refl _

theorem skipWhitespace_ge (bs : List Char) (pos : Nat) :
    pos ≤ skipWhitespace bs pos :=
  skipWhitespaceAux_ge bs _ pos

theorem atomEndAux_ge (bs : List Char) (k : Nat) :
    ∀ e, e ≤ atomEndAux bs k e := by
  induction k with
  | zero => intro e; simp [atomEndAux]
  | succ k ih =>
    intro e
    rw [atomEndAux]
    split
    · exact le_trans (Nat.le_succ e) (ih (e + 1))
    · exact le_refl _

theorem atomEnd_ge (bs : List Char) (pos : Nat) : pos ≤ atomEnd bs pos :=
  atomEndAux_ge bs _ pos

theorem atomEnd_of_not_alphaNum (bs : List Char) (pos : Nat)
    (h : isAlphaNum (bs.getD pos ' ') = false) : atomEnd bs pos = pos := by
  unfold atomEnd
  cases hk : bs.length - pos with
  | zero => rw [atomEndAux]
  | succ k =>
    rw [atomEndAux]
    rw [if_neg]
    rintro ⟨-, hc⟩
    rw [h] at hc
    cases hc

theorem textEndAux_ge (bs : List Char) (k : Nat) :
    ∀ e q e2, textEndAux bs k e q = .ok e2 → e ≤ e2 := by
  induction k with
  | zero =>
    intro e q e2 h
    simp only [textEndAux, Except.ok.injEq] at h
    omega
  | succ k ih =>
    intro e q e2 h
    rw [textEndAux] at h
    split at h
    · split at h
      · split at h
        · exact le_trans (by omega) (ih _ _ _ h)
        · split at h
          · exact le_trans (by omega) (ih _ _ _ h)
          · cases h
      · exact le_trans (by omega) (ih _ _ _ h)
    · simp only [Except.ok.injEq] at h
      omega

theorem textEnd_ge (bs : List Char) (pos e2 : Nat)
    (h : textEnd bs pos = .ok e2) : pos ≤ e2 :=
  textEndAux_ge bs _ _ _ _ h

theorem textEnd_advance (bs : List Char) (pos e2 : Nat)
    (h1 : pos < bs.length) (h2 : bs.getD pos ' ' ≠ ')')
    (h3 : bs.getD pos ' ' ≠ '(') (h : textEnd bs pos = .ok e2) :
    pos + 1 ≤ e2 := by
  unfold textEnd at h
  have hk : bs.length - pos = (bs.length - pos - 1) + 1 := by omega
  rw [hk, textEndAux, if_pos ⟨h1, Or.inl ⟨h2, h3⟩⟩] at h
  split at h
  · split at h
    · have := textEndAux_ge bs _ _ _ _ h
      omega
    · split at h
      · have := textEndAux_ge bs _ _ _ _ h
        omega
      · cases h
  · have := textEndAux_ge bs _ _ _ _ h
    omega

/-- Rank of a state: an upper bound on the number of further state
invocations possible before the cursor must advance.  Used only for the
termination measure. -/
def rank (t : Tokenizer) : TokState → Nat
  | .tokTextOrForm => 3
  | .tokText =>
    if t.bs.getD t.pos ' ' = ')' ∨ t.bs.getD t.pos ' ' = '(' then 2 else 0
  | .tokForm => 0
  | .tokNilOrAtom => 3
  | .tokNil => 0
  | .tokAtom => 2
  | .tokNilOrTextOrForm => 1
  | .tokEOF => 0

/-- Termination measure for the driver loop. -/
def meas (t : Tokenizer) (s : TokState) : Nat :=
  4 * (t.bs.length - t.pos) + rank t s

theorem step_bs (t : Tokenizer) (s : TokState) (t2 : Tokenizer)
    (s2 : Option TokState) (h : step t s = .next t2 s2) : t2.bs = t.bs := by
  cases s <;>
    simp only [step] at h <;>
    (repeat' split at h) <;>
    first
      | (injection h with h1 h2; subst h1; rfl)
      | cases h

theorem step_meas (t : Tokenizer) (s : TokState) (t2 : Tokenizer)
    (s2 : TokState) (hlt : t.pos < t.bs.length)
    (h : step t s = .next t2 (some s2)) (hlt2 : t2.pos < t2.bs.length) :
    meas t2 s2 < meas t s := by
  cases s
  case tokTextOrForm =>
    simp only [step] at h
    set p := skipWhitespace t.bs t.pos with hpdef
    have hp : t.pos ≤ p := by rw [hpdef]; exact skipWhitespace_ge t.bs t.pos
    split at h
    · rename_i hge
      injection h with h1 h2
      subst h1
      dsimp only at hlt2
      omega
    · rename_i hnge
      split at h
      · injection h with h1 h2
        subst h1
        injection h2 with h2
        subst h2
        simp only [meas, rank]
        omega
      · injection h with h1 h2
        subst h1
        injection h2 with h2
        subst h2
        simp only [meas, rank]
        split <;> omega
  case tokText =>
    simp only [step] at h
    set p := skipWhitespace t.bs t.pos with hpdef
    have hp : t.pos ≤ p := by rw [hpdef]; exact skipWhitespace_ge t.bs t.pos
    split at h
    · rename_i hge
      injection h with h1 h2
      subst h1
      dsimp only at hlt2
      omega
    · rename_i hnge
      cases he : textEnd t.bs p with
      | error msg => rw [he] at h; cases h
      | ok e =>
        rw [he] at h
        injection h with h1 h2
        subst h1
        injection h2 with h2
        subst h2
        have hpe : p ≤ e := textEnd_ge t.bs p e he
        simp only [meas, rank]
        by_cases hc : t.bs.getD p ' ' = ')' ∨ t.bs.getD p ' ' = '('
        · rcases Nat.lt_or_ge t.pos p with hpp | hpp
          · split <;> omega
          · have hep : p = t.pos := by omega
            rw [← hep, if_pos hc]
            omega
        · push_neg at hc
          have hadv : p + 1 ≤ e :=
            textEnd_advance t.bs p e (by omega) hc.1 hc.2 he
          split <;> omega
  case tokForm =>
    simp only [step] at h
    injection h with h1 h2
    subst h1
    injection h2 with h2
    subst h2
    simp only [meas, rank]
    omega
  case tokNilOrAtom =>
    simp only [step] at h
    set p := skipWhitespace t.bs t.pos with hpdef
    have hp : t.pos ≤ p := by rw [hpdef]; exact skipWhitespace_ge t.bs t.pos
    split at h
    · rename_i hge
      injection h with h1 h2
      subst h1
      dsimp only at hlt2
      omega
    · rename_i hnge
      split at h
      · cases h
      · split at h
        · injection h with h1 h2
          subst h1
          injection h2 with h2
          subst h2
          simp only [meas, rank]
          omega
        · injection h with h1 h2
          subst h1
          injection h2 with h2
          subst h2
          simp only [meas, rank]
          omega
  case tokNil =>
    simp only [step] at h
    injection h with h1 h2
    subst h1
    injection h2 with h2
    subst h2
    simp only [meas, rank]
    omega
  case tokAtom =>
    simp only [step] at h
    set e := atomEnd t.bs t.pos with hedef
    have hpe : t.pos ≤ e := by rw [hedef]; exact atomEnd_ge t.bs t.pos
    injection h with h1 h2
    subst h1
    injection h2 with h2
    subst h2
    simp only [meas, rank]
    omega
  case tokNilOrTextOrForm =>
    simp only [step] at h
    set p := skipWhitespace t.bs t.pos with hpdef
    have hp : t.pos ≤ p := by rw [hpdef]; exact skipWhitespace_ge t.bs t.pos
    split at h
    · rename_i hge
      injection h with h1 h2
      subst h1
      dsimp only at hlt2
      omega
    · rename_i hnge
      split at h
      · injection h with h1 h2
        subst h1
        injection h2 with h2
        subst h2
        simp only [meas, rank]
        omega
      · split at h
        · injection h with h1 h2
          subst h1
          injection h2 with h2
          subst h2
          simp only [meas, rank]
          omega
        · rename_i hc1 hc2
          injection h with h1 h2
          subst h1
          injection h2 with h2
          subst h2
          simp only [meas, rank]
          rw [if_neg (by rintro (hx | hx) <;> [exact hc1 hx; exact hc2 hx])]
          omega
  case tokEOF =>
    simp only [step] at h
    injection h with h1 h2
    cases h2

/-- True for every run result except fuel exhaustion. -/
def finished : RunOut → Bool
  | .outOfFuel => false
  | _ => true

theorem runLoop_none (fuel : Nat) (t : Tokenizer) :
    runLoop fuel t none = .done t.tokens := by
  cases fuel <;> rfl

theorem runLoop_done_of_ge (fuel : Nat) (t : Tokenizer) (s : TokState)
    (h : t.bs.length ≤ t.pos) : runLoop fuel t (some s) = .done t.tokens := by
  cases fuel with
  | zero => rw [runLoop, if_neg (by omega)]
  | succ k => rw [runLoop, if_neg (by omega)]

theorem runLoop_finished (fuel : Nat) :
    ∀ (t : Tokenizer) (s : TokState), meas t s < fuel →
      finished (runLoop fuel t (some s)) = true := by
  induction fuel with
  | zero => intro t s h; omega
  | succ k ih =>
    intro t s h
    by_cases hpos : t.pos < t.bs.length
    · rw [runLoop, if_pos hpos]
      cases hstep : step t s with
      | panicked msg => rfl
      | next t2 s2 =>
        show finished (runLoop k t2 s2) = true
        cases s2 with
        | none => rw [runLoop_none]; rfl
        | some s2 =>
          have hbs := step_bs t s t2 (some s2) hstep
          by_cases h2 : t2.pos < t2.bs.length
          · have hdec := step_meas t s t2 s2 hpos hstep h2
            exact ih t2 s2 (by omega)
          · rw [runLoop_done_of_ge k t2 s2 (by omega)]; rfl
    · rw [runLoop, if_neg hpos]; rfl

theorem runLoop_fuel_mono (fuel : Nat) :
    ∀ (fuel2 : Nat) (t : Tokenizer) (s : Option TokState),
      finished (runLoop fuel t s) = true → fuel ≤ fuel2 →
      runLoop fuel2 t s = runLoop fuel t s := by
  induction fuel with
  | zero =>
    intro fuel2 t s hfin hle
    cases s with
    | none => rw [runLoop_none, runLoop_none]
    | some st =>
      rw [runLoop] at hfin
      split at hfin
      · cases hfin
      · rename_i hge
        rw [runLoop_done_of_ge fuel2 t st (by omega),
          runLoop_done_of_ge 0 t st (by omega)]
  | succ k ih =>
    intro fuel2 t s hfin hle
    cases s with
    | none => rw [runLoop_none, runLoop_none]
    | some st =>
      obtain ⟨k2, rfl⟩ : ∃ k2, fuel2 = k2 + 1 := ⟨fuel2 - 1, by omega⟩
      by_cases hpos : t.pos < t.bs.length
      · rw [runLoop, if_pos hpos] at hfin
        rw [runLoop, runLoop, if_pos hpos, if_pos hpos]
        cases hstep : step t st with
        | panicked msg => rw [hstep] at hfin
        | next t2 s2 =>
          rw [hstep] at hfin
          show runLoop k2 t2 s2 = runLoop k t2 s2
          exact ih k2 t2 s2 hfin (by omega)
      · rw [runLoop_done_of_ge (k2 + 1) t st (by omega),
          runLoop_done_of_ge (k + 1) t st (by omega)]

/-- The output token list is ordered by non-decreasing position. -/
def posOrdered (tks : List Token) : Prop :=
  List.Chain' (fun a b => a.pos ≤ b.pos) tks

/-- Every recorded token starts at or before position `p`. -/
def tokensLE (tks : List Token) (p : Nat) : Prop :=
  ∀ tk ∈ tks, tk.pos ≤ p

theorem mem_of_mem_getLast {α : Type} {l : List α} {a : α}
    (h : a ∈ l.getLast?) : a ∈ l := by
  obtain ⟨hne, rfl⟩ := List.mem_getLast?_eq_getLast h
  exact List.getLast_mem hne

theorem posOrdered_append {tks l2 : List Token} {p : Nat}
    (h1 : posOrdered tks) (hb : tokensLE tks p) (h2 : posOrdered l2)
    (h3 : ∀ u ∈ l2, p ≤ u.pos) : posOrdered (tks ++ l2) := by
  refine List.Chain'.append h1 h2 ?_
  intro x hx y hy
  exact le_trans (hb x (mem_of_mem_getLast hx)) (h3 y (List.mem_of_mem_head? hy))

theorem tokensLE_mono {tks : List Token} {p q : Nat} (h : tokensLE tks p)
    (hpq : p ≤ q) : tokensLE tks q :=
  fun tk htk => le_trans (h tk htk) hpq

theorem tokensLE_append {tks l2 : List Token} {p : Nat} (h1 : tokensLE tks p)
    (h2 : tokensLE l2 p) : tokensLE (tks ++ l2) p := by
  intro tk htk
  rcases List.mem_append.mp htk with hm | hm
  · exact h1 tk hm
  · exact h2 tk hm

theorem inv_emit {tks l2 : List Token} {pos p q : Nat}
    (h1 : posOrdered tks) (h2 : tokensLE tks pos) (hpp : pos ≤ p)
    (hpq : p ≤ q) (hord2 : posOrdered l2) (hge : ∀ u ∈ l2, p ≤ u.pos)
    (hle : ∀ u ∈ l2, u.pos ≤ q) :
    posOrdered (tks ++ l2) ∧ tokensLE (tks ++ l2) q :=
  ⟨posOrdered_append h1 (tokensLE_mono h2 hpp) hord2 hge,
    tokensLE_append (tokensLE_mono h2 (le_trans hpp hpq)) hle⟩

theorem step_inv (t : Tokenizer) (s : TokState) (t2 : Tokenizer)
    (s2 : Option TokState) (h1 : posOrdered t.tokens)
    (h2 : tokensLE t.tokens t.pos) (hstep : step t s = .next t2 s2) :
    posOrdered t2.tokens ∧ tokensLE t2.tokens t2.pos := by
  cases s
  case tokTextOrForm | tokNilOrAtom | tokNilOrTextOrForm =>
    simp only [step] at hstep
    set p := skipWhitespace t.bs t.pos with hpdef
    have hp : t.pos ≤ p := by rw [hpdef]; exact skipWhitespace_ge t.bs t.pos
    (repeat' split at hstep) <;>
      first
        | (injection hstep with hh1 hh2; subst hh1;
            exact ⟨h1, tokensLE_mono h2 hp⟩)
        | cases hstep
  case tokText =>
    simp only [step] at hstep
    set p := skipWhitespace t.bs t.pos with hpdef
    have hp : t.pos ≤ p := by rw [hpdef]; exact skipWhitespace_ge t.bs t.pos
    split at hstep
    · injection hstep with hh1 hh2
      subst hh1
      exact ⟨h1, tokensLE_mono h2 hp⟩
    · cases he : textEnd t.bs p with
      | error msg => rw [he] at hstep; cases hstep
      | ok e =>
        rw [he] at hstep
        injection hstep with hh1 hh2
        subst hh1
        have hpe : p ≤ e := textEnd_ge t.bs p e he
        dsimp only
        refine inv_emit h1 h2 hp hpe (List.chain'_singleton _) ?_ ?_
        · intro u hu
          rw [List.mem_singleton] at hu
          subst hu
          exact le_refl _
        · intro u hu
          rw [List.mem_singleton] at hu
          subst hu
          exact hpe
  case tokForm =>
    simp only [step] at hstep
    injection hstep with hh1 hh2
    subst hh1
    dsimp only
    refine inv_emit h1 h2 (le_refl t.pos) (Nat.le_succ t.pos)
      (List.chain'_singleton _) ?_ ?_
    · intro u hu
      rw [List.mem_singleton] at hu
      subst hu
      exact le_refl _
    · intro u hu
      rw [List.mem_singleton] at hu
      subst hu
      exact Nat.le_succ _
  case tokNil =>
    simp only [step] at hstep
    injection hstep with hh1 hh2
    subst hh1
    dsimp only
    refine inv_emit h1 h2 (le_refl t.pos) (Nat.le_succ t.pos)
      (List.chain'_singleton _) ?_ ?_
    · intro u hu
      rw [List.mem_singleton] at hu
      subst hu
      exact le_refl _
    · intro u hu
      rw [List.mem_singleton] at hu
      subst hu
      exact Nat.le_succ _
  case tokAtom =>
    simp only [step] at hstep
    set e := atomEnd t.bs t.pos with hedef
    have hpe : t.pos ≤ e := by rw [hedef]; exact atomEnd_ge t.bs t.pos
    injection hstep with hh1 hh2
    subst hh1
    dsimp only
    refine inv_emit h1 h2 (le_refl t.pos) hpe (List.chain'_singleton _) ?_ ?_
    · intro u hu
      rw [List.mem_singleton] at hu
      subst hu
      exact le_refl _
    · intro u hu
      rw [List.mem_singleton] at hu
      subst hu
      exact hpe
  case tokEOF =>
    simp only [step] at hstep
    injection hstep with hh1 hh2
    subst hh1
    dsimp only
    refine inv_emit h1 h2 (le_refl t.pos) (le_refl t.pos) ?_ ?_ ?_
    · simp [posOrdered, List.chain'_cons, List.chain'_singleton]
    · intro u hu
      simp only [List.mem_cons, List.mem_singleton, List.not_mem_nil,
        or_false] at hu
      rcases hu with rfl | rfl | rfl <;> exact le_refl _
    · intro u hu
      simp only [List.mem_cons, List.mem_singleton, List.not_mem_nil,
        or_false] at hu
      rcases hu with rfl | rfl | rfl <;> exact le_refl _

theorem runLoop_ordered (fuel : Nat) :
    ∀ (t : Tokenizer) (s : Option TokState) (tks : List Token),
      posOrdered t.tokens → tokensLE t.tokens t.pos →
      runLoop fuel t s = .done tks → posOrdered tks := by
  induction fuel with
  | zero =>
    intro t s tks h1 h2 h
    cases s with
    | none =>
      rw [runLoop_none] at h
      injection h with h
      subst h
      exact h1
    | some st =>
      rw [runLoop] at h
      split at h
      · cases h
      · injection h with h
        subst h
        exact h1
  | succ k ih =>
    intro t s tks h1 h2 h
    cases s with
    | none =>
      rw [runLoop_none] at h
      injection h with h
      subst h
      exact h1
    | some st =>
      rw [runLoop] at h
      split at h
      · cases hstep : step t st with
        | panicked msg => rw [hstep] at h; cases h
        | next t2 s2 =>
          rw [hstep] at h
          obtain ⟨h1a, h2a⟩ := step_inv t st t2 s2 h1 h2 hstep
          exact ih t2 s2 tks h1a h2a h
      · injection h with h
        subst h
        exact h1

/-- Claim C1, evaluated at the failing inputs: the claim says every run
ends with the synthetic `FormStart "(" / Atom "eof" / FormEnd ")"` triple,
but the driver loop `for t.pos < l && t.state != nil` exits as soon as the
cursor reaches the end of input, before the returned `tokEOF` state can
run, so no eof triple is ever appended: the empty input produces an empty
token list and input `a` produces just the one text token. -/
theorem claim1_no_eof_triple :
    Tokenize (String.toList "") = .done [] ∧
      Tokenize (String.toList "a") = .done [⟨.TypeText, "a", 0⟩] := by
  decide

/-- Claim C2, evaluated at the failing inputs: the claim says an invalid
escape is reported as an `InvalidEscape` error value carrying the
backslash position, but the code panics with the bare message
`invalid escape character` (no position, no result value), both for a
backslash followed by a non-escape character and for a trailing
backslash. -/
theorem claim2_invalid_escape_panics :
    Tokenize (String.toList "\\x") = .panicked "invalid escape character" ∧
      Tokenize (String.toList "a\\") =
        .panicked "invalid escape character" := by
  decide

/-- Claim C3, evaluated at the failing input: the claim says a `(`
immediately after a form-opening `(` is reported as an
`ExpectedAtomOrClose` error value carrying its position, but the code
panics with a bare message carrying no position. -/
theorem claim3_nested_form_head_panics :
    Tokenize (String.toList "((a))") =
      .panicked "invalid: cannot start form / expected atom or nil" := by
  decide

/-- Claim C4, counterexample to the stated bound: with a number of steps
equal to the input length (fuel 1 for the one-character input `)`), the
machine has not finished—the run of `)` takes four state invocations
(`tokTextOrForm`, `tokText`, `tokNilOrTextOrForm`, `tokNil`). -/
theorem claim4_counterexample :
    runLoop (String.toList ")").length
      { bs := String.toList ")", pos := 0, tokens := [] }
      (some .tokTextOrForm) = .outOfFuel := by
  decide

/-- Claim C4 (amended): for every input, `Tokenize` terminates, in at most
`4 * length + 4` state invocations (linear in the input length, though not
bounded by the length itself): the driver loop never exhausts that fuel. -/
theorem claim4_terminates_linear (bs : List Char) :
    finished (Tokenize bs) = true := by
  unfold Tokenize
  apply runLoop_finished
  simp only [meas, rank]
  omega

/-- Claim C5: for every input, any two adjacent tokens `a, b` of the
returned token sequence satisfy `a.pos ≤ b.pos`. -/
theorem claim5_positions_monotone (bs : List Char) (tks : List Token)
    (h : Tokenize bs = .done tks) :
    List.Chain' (fun a b => a.pos ≤ b.pos) tks :=
  runLoop_ordered (4 * bs.length + 4)
    { bs := bs, pos := 0, tokens := [] } (some .tokTextOrForm) tks
    List.chain'_nil (fun tk htk => absurd htk (List.not_mem_nil tk)) h

/-- Witness for C5 at the concrete input `(a)`. -/
theorem claim5_witness :
    List.Chain' (fun a b => a.pos ≤ b.pos)
      ([⟨TokenType.TypeFormStart, "(", 0⟩, ⟨TokenType.TypeAtom, "a", 1⟩,
        ⟨TokenType.TypeFormEnd, ")", 2⟩] : List Token) :=
  claim5_positions_monotone (String.toList "(a)")
    [⟨TokenType.TypeFormStart, "(", 0⟩, ⟨TokenType.TypeAtom, "a", 1⟩,
      ⟨TokenType.TypeFormEnd, ")", 2⟩] (by decide)

/-- Claim C6: for input `(a)` the whole output (the eof triple is never
appended, see C1) is exactly `FormStart "("` at 0, `Atom "a"` at 1 and
`FormEnd ")"` at 2. -/
theorem claim6_balanced_form_echo :
    Tokenize (String.toList "(a)") =
      .done [⟨.TypeFormStart, "(", 0⟩, ⟨.TypeAtom, "a", 1⟩,
        ⟨.TypeFormEnd, ")", 2⟩] := by
  decide

/-- Claim C7: for input `a\(b` the output is a single `Text` token whose
text is the verbatim `a\(b` (backslash retained), the scan not having
stopped at the escaped `(`. -/
theorem claim7_escape_retained :
    Tokenize (String.toList "a\\(b") = .done [⟨.TypeText, "a\\(b", 0⟩] := by
  decide

/-- Claim C8: for input `\+(\+` the `\+` marker toggles quoting, so the
`(` inside the quoted span is ordinary text: the whole input becomes one
`Text` token and no `FormStart` token is emitted. -/
theorem claim8_quote_toggle :
    Tokenize (String.toList "\\+(\\+") =
      .done [⟨.TypeText, "\\+(\\+", 0⟩] := by
  decide

/-- Claim C9: the atom character class is exactly lowercase ASCII
letters, ASCII digits and `-`; input `(abc-12)` yields the atom text
`abc-12`; an uppercase letter or underscore stops the atom scan at that
character (the rest is re-scanned as text, not silently folded into the
atom). -/
theorem claim9_atom_charclass :
    (∀ c : Char, isAlphaNum c = true ↔
      (('a'.toNat ≤ c.toNat ∧ c.toNat ≤ 'z'.toNat) ∨
        ('0'.toNat ≤ c.toNat ∧ c.toNat ≤ '9'.toNat) ∨ c = '-')) ∧
    Tokenize (String.toList "(abc-12)") =
      .done [⟨.TypeFormStart, "(", 0⟩, ⟨.TypeAtom, "abc-12", 1⟩,
        ⟨.TypeFormEnd, ")", 7⟩] ∧
    Tokenize (String.toList "(aB)") =
      .done [⟨.TypeFormStart, "(", 0⟩, ⟨.TypeAtom, "a", 1⟩,
        ⟨.TypeText, "B", 2⟩, ⟨.TypeFormEnd, ")", 3⟩] ∧
    Tokenize (String.toList "(a_b)") =
      .done [⟨.TypeFormStart, "(", 0⟩, ⟨.TypeAtom, "a", 1⟩,
        ⟨.TypeText, "_b", 2⟩, ⟨.TypeFormEnd, ")", 4⟩] := by
  refine ⟨?_, by decide, by decide, by decide⟩
  intro c
  simp only [isAlphaNum, isAlpha, isNum, Bool.or_eq_true, decide_eq_true_eq]
  constructor
  · rintro ((h | h) | h)
    · exact Or.inl h
    · exact Or.inr (Or.inr h)
    · exact Or.inr (Or.inl h)
  · rintro (h | h | h)
    · exact Or.inl (Or.inl h)
    · exact Or.inr h
    · exact Or.inl (Or.inr h)

/-- Claim C10: when `tokAtom` runs on a character outside the atom class,
it emits an `Atom` token with empty text at the current position and does
not advance the cursor; concretely, for input `(*)` the machine emits an
empty atom at position 1 and then re-reads `*` as text. -/
theorem claim10_empty_atom :
    (∀ t : Tokenizer, isAlphaNum (t.bs.getD t.pos ' ') = false →
      step t .tokAtom =
        .next ⟨t.bs, t.pos, t.tokens ++ [⟨.TypeAtom, "", t.pos⟩]⟩
          (some .tokNilOrTextOrForm)) ∧
    Tokenize (String.toList "(*)") =
      .done [⟨.TypeFormStart, "(", 0⟩, ⟨.TypeAtom, "", 1⟩,
        ⟨.TypeText, "*", 1⟩, ⟨.TypeFormEnd, ")", 2⟩] := by
  refine ⟨?_, by decide⟩
  intro t h
  simp only [step]
  rw [atomEnd_of_not_alphaNum t.bs t.pos h]
  have hsub : substring t.bs t.pos t.pos = "" := by
    simp [substring]
  rw [hsub]

/-- Witness for C10: the general empty-atom lemma applied to the concrete
machine state reached inside `(*)`. -/
theorem claim10_witness :
    step ⟨String.toList "(*)", 1, [⟨.TypeFormStart, "(", 0⟩]⟩ .tokAtom =
      .next ⟨String.toList "(*)", 1,
        [⟨.TypeFormStart, "(", 0⟩, ⟨.TypeAtom, "", 1⟩]⟩
        (some .tokNilOrTextOrForm) :=
  claim10_empty_atom.left ⟨String.toList "(*)", 1, [⟨.TypeFormStart, "(", 0⟩]⟩
    (by decide)

end Blog
